import Mathlib

/-!
# Spelling Fox — verification of the specified behaviours

Shallow embedding of the TIMOVIS/spellingfox repository's core logic:

* `src/lib/supabaseQueries.ts` — daily-quest assignment operations
  (`toggleDailyQuestWord`, `assignWordsToDailyQuest`) and the paginated
  word-bank listing (`getAllWords`), modelled over an in-memory relational
  state standing for the hosted database.
* `src/components/SpellingBeeModal.tsx` — the typed-dictation spelling-bee
  mini-game, modelled as an event-driven state machine mirroring the React
  component's state fields and handlers.
* `src/components/SpellingModal.tsx` — the grid-collection ("snake")
  mini-game's queue/score logic and its render-time behaviour.
* `src/geminiService.ts` — the content-generation gateway functions' input
  validation and response handling.
* `src/components/FlashcardQuest.tsx` — the voice variant's transcript
  normalisation (`transcriptToLetter`, `LETTER_PRONUNCIATIONS`,
  `pickLetterFromResult`).

The hosted database, the generative-language service, browser speech
facilities and `JSON.parse` are external collaborators; they appear as
explicit state or as function parameters, per the spec's scope section.
-/

namespace SpellingFox

/-! ## Daily-quest database model (`src/lib/supabaseQueries.ts`)

The `vocab_daily_quests` table: one row per assignment.  Row ids are issued
by the store; we carry a `nextId` counter so inserts get fresh ids, the way
the backend's key generator behaves.  PostgREST's `.single()` yields data
exactly when one row matches (any other cardinality is an error, which
`toggleDailyQuestWord` discards via destructuring, leaving `existing` null).
-/

/-- A row of `vocab_daily_quests`. -/
structure QuestRow where
  id : Nat
  studentId : String
  wordId : String
  questDate : String
  completed : Bool
deriving DecidableEq, Repr

/-- In-memory stand-in for the backing store's `vocab_daily_quests` table. -/
structure QuestDb where
  quests : List QuestRow
  nextId : Nat
deriving DecidableEq, Repr

/-- Row matches the (student, word, date) key used by `toggleDailyQuestWord`. -/
def questKeyMatch (sid wid date : String) (r : QuestRow) : Bool :=
  r.studentId == sid && r.wordId == wid && r.questDate == date

/-- The rows matching a (student, word, date) key. -/
def questMatches (db : QuestDb) (sid wid date : String) : List QuestRow :=
  db.quests.filter (questKeyMatch sid wid date)

/-- PostgREST `.select('id').single()` on the key: data exactly when one row
matches; the source discards the error, so any other cardinality reads as
"not assigned". -/
def selectSingleQuest (db : QuestDb) (sid wid date : String) : Option QuestRow :=
  match questMatches db sid wid date with
  | [r] => some r
  | _ => none

/-- Membership: is some row assigned for the (student, word, date) key? -/
def isAssigned (db : QuestDb) (sid wid date : String) : Bool :=
  db.quests.any (questKeyMatch sid wid date)

/-- `toggleDailyQuestWord` (supabaseQueries.ts:299-334): check-then-act —
if a single matching row exists delete it by id, otherwise insert a fresh
row with `completed: false`. -/
def toggleDailyQuestWord (db : QuestDb) (sid wid date : String) : QuestDb :=
  match selectSingleQuest db sid wid date with
  | some r => { db with quests := db.quests.filter (fun q => q.id != r.id) }
  | none =>
      { quests := db.quests ++ [⟨db.nextId, sid, wid, date, false⟩],
        nextId := db.nextId + 1 }

end SpellingFox

namespace SpellingFox

/-! Helper lemmas about `questMatches` under the two toggle branches. -/

theorem questMatches_def (db : QuestDb) (sid wid date : String) :
    questMatches db sid wid date = db.quests.filter (questKeyMatch sid wid date) := rfl

theorem isAssigned_iff (db : QuestDb) (sid wid date : String) :
    isAssigned db sid wid date = true ↔ questMatches db sid wid date ≠ [] := by
  unfold isAssigned questMatches
  rw [List.any_eq_true]
  constructor
  · rintro ⟨r, hr, hm⟩ h
    have : r ∈ db.quests.filter (questKeyMatch sid wid date) :=
      List.mem_filter.mpr ⟨hr, hm⟩
    simp [h] at this
  · intro h
    rcases List.exists_mem_of_ne_nil _ h with ⟨r, hr⟩
    rcases List.mem_filter.mp hr with ⟨hq, hm⟩
    exact ⟨r, hq, hm⟩

theorem filter_key_filter_id (l : List QuestRow) (sid wid date : String) (i : Nat) :
    (l.filter (fun q => q.id != i)).filter (questKeyMatch sid wid date)
      = (l.filter (questKeyMatch sid wid date)).filter (fun q => q.id != i) := by
  rw [List.filter_filter, List.filter_filter]
  congr 1
  funext q
  exact Bool.and_comm _ _

theorem filter_key_append_one (l : List QuestRow) (sid wid date : String) (r : QuestRow) :
    (l ++ [r]).filter (questKeyMatch sid wid date)
      = l.filter (questKeyMatch sid wid date)
        ++ (if questKeyMatch sid wid date r then [r] else []) := by
  simp only [List.filter_append]
  congr 1
  simp only [List.filter]
  cases questKeyMatch sid wid date r <;> simp

theorem questKeyMatch_fresh (sid wid date : String) (n : Nat) (c : Bool) :
    questKeyMatch sid wid date ⟨n, sid, wid, date, c⟩ = true := by
  simp [questKeyMatch]

theorem toggle_of_single {db : QuestDb} {sid wid date : String} {r : QuestRow}
    (h : questMatches db sid wid date = [r]) :
    toggleDailyQuestWord db sid wid date
      = { db with quests := db.quests.filter (fun q => q.id != r.id) } := by
  unfold toggleDailyQuestWord selectSingleQuest
  rw [h]

theorem toggle_of_none {db : QuestDb} {sid wid date : String}
    (h : selectSingleQuest db sid wid date = none) :
    toggleDailyQuestWord db sid wid date
      = { quests := db.quests ++ [⟨db.nextId, sid, wid, date, false⟩],
          nextId := db.nextId + 1 } := by
  unfold toggleDailyQuestWord
  rw [h]

/-- C5.  Toggling the same (student, word, date) assignment twice in
immediate succession returns its membership to the original state:
an assigned word stays assigned, an unassigned word stays unassigned.
(The row's id and `completed` flag may differ — the claim is about
membership only.) -/
theorem toggle_toggle_isAssigned (db : QuestDb) (sid wid date : String) :
    isAssigned (toggleDailyQuestWord (toggleDailyQuestWord db sid wid date) sid wid date)
        sid wid date
      = isAssigned db sid wid date := by
  rw [Bool.eq_iff_iff, isAssigned_iff, isAssigned_iff]
  rcases h : questMatches db sid wid date with _ | ⟨r, _ | ⟨r2, rest⟩⟩
  · -- unassigned: insert, then the second toggle deletes the inserted row
      have hL : db.quests.filter (questKeyMatch sid wid date) = [] := h
      have h1 := @toggle_of_none db sid wid date
        (by unfold selectSingleQuest; rw [h])
      have hm1 : questMatches (toggleDailyQuestWord db sid wid date) sid wid date
          = [⟨db.nextId, sid, wid, date, false⟩] := by
        rw [h1, questMatches_def]
        simp only
        rw [filter_key_append_one, hL]
        simp [questKeyMatch_fresh]
      have h2 := toggle_of_single hm1
      rw [h2, questMatches_def]
      simp only [h1]
      rw [filter_key_filter_id, filter_key_append_one, hL]
      simp [questKeyMatch_fresh, h]
  · -- assigned via exactly one row: delete it, then re-insert
      have hL : db.quests.filter (questKeyMatch sid wid date) = [r] := h
      have h1 := toggle_of_single h
      have hm1 : questMatches (toggleDailyQuestWord db sid wid date) sid wid date = [] := by
        rw [h1, questMatches_def]
        simp only
        rw [filter_key_filter_id, hL]
        simp
      have h2 := @toggle_of_none (toggleDailyQuestWord db sid wid date) sid wid date
        (by unfold selectSingleQuest; rw [hm1])
      rw [h2, questMatches_def]
      simp only
      rw [filter_key_append_one, ← questMatches_def, hm1]
      simp [questKeyMatch_fresh, h]
  · -- ≥ 2 matching rows: `.single()` errors, read as unassigned, so insert twice
      have hL : db.quests.filter (questKeyMatch sid wid date) = r :: r2 :: rest := h
      have h1 := @toggle_of_none db sid wid date
        (by unfold selectSingleQuest; rw [h])
      have hm1 : questMatches (toggleDailyQuestWord db sid wid date) sid wid date
          = r :: r2 :: (rest ++ [⟨db.nextId, sid, wid, date, false⟩]) := by
        rw [h1, questMatches_def]
        simp only
        rw [filter_key_append_one, hL]
        simp [questKeyMatch_fresh]
      have h2 := @toggle_of_none (toggleDailyQuestWord db sid wid date) sid wid date
        (by unfold selectSingleQuest; rw [hm1])
      rw [h2, questMatches_def]
      simp only
      rw [filter_key_append_one, ← questMatches_def, hm1]
      simp [questKeyMatch_fresh, h]

end SpellingFox

namespace SpellingFox

/-! ## Bulk assignment (`assignWordsToDailyQuest`, supabaseQueries.ts:270-297)

Delete-then-insert: first remove every row for (student, date), then insert
one `completed: false` row per word id and return the inserted rows.  The
store enforces a uniqueness constraint on (student, word, date); a batch
insert is a single statement, so it succeeds atomically exactly when no two
inserted rows collide with each other or with a surviving row. -/

/-- The uniqueness key of `vocab_daily_quests`. -/
def questKey (r : QuestRow) : String × String × String :=
  (r.studentId, r.wordId, r.questDate)

/-- The rows inserted for the word ids, with ids issued consecutively. -/
def buildQuestRows (sid date : String) : Nat → List String → List QuestRow
  | _, [] => []
  | n, wid :: rest => ⟨n, sid, wid, date, false⟩ :: buildQuestRows sid date (n + 1) rest

/-- Store-level error surfaced by a failed insert. -/
inductive DbError where
  | uniqueViolation
deriving DecidableEq, Repr

/-- `assignWordsToDailyQuest`: replace the (student, date) assignment set. -/
def assignWordsToDailyQuest (db : QuestDb) (sid : String) (wordIds : List String)
    (date : String) : Except DbError (QuestDb × List QuestRow) :=
  let kept := db.quests.filter (fun r => !(r.studentId == sid && r.questDate == date))
  let rows := buildQuestRows sid date db.nextId wordIds
  if (rows.map questKey).Nodup ∧ ∀ r ∈ rows, ∀ q ∈ kept, questKey r ≠ questKey q then
    .ok ({ quests := kept ++ rows, nextId := db.nextId + wordIds.length }, rows)
  else
    .error .uniqueViolation

theorem buildQuestRows_map_wordId (sid date : String) (wordIds : List String) :
    ∀ n, (buildQuestRows sid date n wordIds).map (fun r => r.wordId) = wordIds := by
  induction wordIds with
  | nil => intro n; rfl
  | cons w rest ih => intro n; simp [buildQuestRows, ih]

theorem buildQuestRows_any_keyMatch (sid date wid : String) (wordIds : List String) :
    ∀ n, (buildQuestRows sid date n wordIds).any (questKeyMatch sid wid date)
      = wordIds.contains wid := by
  induction wordIds with
  | nil => intro n; rfl
  | cons w rest ih =>
      intro n
      have hbeq : (w == wid) = (wid == w) := by
        by_cases hww : w = wid
        · simp [hww]
        · simp [hww, Ne.symm hww]
      simp [buildQuestRows, List.any_cons, ih, List.contains_cons, questKeyMatch, hbeq]
      by_cases hw : wid = w
      · simp [hw]
      · simp [hw]

theorem kept_any_keyMatch (db : QuestDb) (sid wid date : String) :
    (db.quests.filter (fun r => !(r.studentId == sid && r.questDate == date))).any
      (questKeyMatch sid wid date) = false := by
  rw [Bool.eq_false_iff]
  intro hc
  rcases List.any_eq_true.mp hc with ⟨r, hr, hm⟩
  rcases List.mem_filter.mp hr with ⟨_, hkeep⟩
  unfold questKeyMatch at hm
  simp at hm hkeep
  obtain ⟨⟨hs, _⟩, hd⟩ := hm
  cases hkeep with
  | inl hk => exact hk hs
  | inr hk => exact hk hd

/-- C6.  On success, bulk-assign fully replaces the (student, date)
assignment set: afterwards a word is assigned for that date exactly when
its id was in the supplied list, the returned rows list the supplied ids in
order, and an empty id list clears the day and returns an empty list. -/
theorem assignWords_replaces (db : QuestDb) (sid date : String)
    (wordIds : List String) (db' : QuestDb) (ret : List QuestRow)
    (h : assignWordsToDailyQuest db sid wordIds date = .ok (db', ret)) :
    (∀ wid, isAssigned db' sid wid date = wordIds.contains wid)
      ∧ ret.map (fun r => r.wordId) = wordIds
      ∧ (wordIds = [] → ret = [] ∧ ∀ wid, isAssigned db' sid wid date = false) := by
  simp only [assignWordsToDailyQuest] at h
  split at h
  case isFalse => exact absurd h (by simp)
  case isTrue hok =>
    rw [Except.ok.injEq, Prod.mk.injEq] at h
    obtain ⟨hdb, hret⟩ := h
    subst hdb
    subst hret
    have hassigned : ∀ wid,
        isAssigned
          { quests :=
              db.quests.filter (fun r => !(r.studentId == sid && r.questDate == date))
                ++ buildQuestRows sid date db.nextId wordIds,
            nextId := db.nextId + wordIds.length } sid wid date
          = wordIds.contains wid := by
      intro wid
      unfold isAssigned
      simp only [List.any_append]
      rw [kept_any_keyMatch db sid wid date, buildQuestRows_any_keyMatch]
      simp
    refine ⟨hassigned, ?_, ?_⟩
    · rw [buildQuestRows_map_wordId]
    · intro hnil
      subst hnil
      exact ⟨rfl, fun wid => by rw [hassigned wid]; rfl⟩

/-- Witness for C6: a store holding one assignment for student "s" on day
"d"; bulk-assign with the empty id list clears the day and returns `[]`. -/
theorem assignWords_replaces_witness :
    isAssigned { quests := [], nextId := 1 } "s" "w0" "d" = ([] : List String).contains "w0"
      ∧ (([] : List QuestRow).map (fun r => r.wordId) = ([] : List String)) :=
  have h := assignWords_replaces
    { quests := [⟨0, "s", "w0", "d", false⟩], nextId := 1 } "s" "d" []
    { quests := [], nextId := 1 } [] (by rfl)
  ⟨h.1 "w0", h.2.1⟩

end SpellingFox

namespace SpellingFox

/-! ## Word-bank listing (`getAllWords`, supabaseQueries.ts:14-35)

The backend returns `vocab_words` rows ordered by the unique `word` column
(`.order('word')`); `.range(from, to)` slices that ordering inclusively.
`getAllWords` pulls pages of `WORDS_PAGE_SIZE` rows and keeps going while a
full page comes back.  Only the ordering column and the identity of rows
matter here, so `VocabWord` is reduced to its key fields; the remaining
curriculum metadata travels along unchanged in the real rows. -/

/-- A `vocab_words` row (key fields). -/
structure VocabWord where
  id : String
  word : String
deriving DecidableEq, Repr

/-- Backend ordering: ascending by surface form. -/
def vocabLe (a b : VocabWord) : Prop := a.word ≤ b.word

instance : DecidableRel vocabLe := fun a b =>
  inferInstanceAs (Decidable (a.word ≤ b.word))

instance : IsTotal VocabWord vocabLe := ⟨fun a b => le_total a.word b.word⟩

instance : IsTrans VocabWord vocabLe := ⟨fun _ _ _ h h' => le_trans h h'⟩

/-- The table as the backend serves it under `.order('word')`. -/
def wordsOrdered (table : List VocabWord) : List VocabWord :=
  table.insertionSort vocabLe

/-- `.order('word').range(frm, to)` — inclusive slice of the ordered rows. -/
def wordsRange (table : List VocabWord) (frm upTo : Nat) : List VocabWord :=
  ((wordsOrdered table).drop frm).take (upTo - frm + 1)

def WORDS_PAGE_SIZE : Nat := 1000

/-- The `while (hasMore)` loop of `getAllWords`: fetch `[frm, frm+999]`,
append the page, and continue exactly when the page was full. -/
def getAllWordsLoop (table : List VocabWord) (frm : Nat) : List VocabWord :=
  if (wordsRange table frm (frm + WORDS_PAGE_SIZE - 1)).length = WORDS_PAGE_SIZE then
    wordsRange table frm (frm + WORDS_PAGE_SIZE - 1)
      ++ getAllWordsLoop table (frm + WORDS_PAGE_SIZE)
  else
    wordsRange table frm (frm + WORDS_PAGE_SIZE - 1)
termination_by (wordsOrdered table).length - frm
decreasing_by
  rename_i h
  simp only [wordsRange, WORDS_PAGE_SIZE, List.length_take, List.length_drop] at h ⊢
  omega

/-- `getAllWords` (supabaseQueries.ts:17-35). -/
def getAllWords (table : List VocabWord) : List VocabWord :=
  getAllWordsLoop table 0

theorem getAllWordsLoop_eq (table : List VocabWord) (frm : Nat) :
    getAllWordsLoop table frm = (wordsOrdered table).drop frm := by
  induction frm using getAllWordsLoop.induct table with
  | case1 frm hfull ih =>
      rw [getAllWordsLoop, if_pos hfull, ih]
      have hlen : frm + WORDS_PAGE_SIZE - 1 - frm + 1 = WORDS_PAGE_SIZE := by
        simp [WORDS_PAGE_SIZE]
      unfold wordsRange
      rw [hlen, ← List.drop_drop]
      exact List.take_append_drop WORDS_PAGE_SIZE ((wordsOrdered table).drop frm)
  | case2 frm hne =>
      rw [getAllWordsLoop, if_neg hne]
      have hlen : frm + WORDS_PAGE_SIZE - 1 - frm + 1 = WORDS_PAGE_SIZE := by
        simp [WORDS_PAGE_SIZE]
      unfold wordsRange at hne ⊢
      rw [hlen]
      apply List.take_of_length_le
      rw [hlen] at hne
      simp only [WORDS_PAGE_SIZE, List.length_take, List.length_drop] at hne ⊢
      omega

/-- C7.  `getAllWords` terminates (it is a total function) and returns
exactly the backend's ordering of the whole table: the concatenated pages
are the rows sorted by surface form, every stored row appearing exactly as
often as it is stored — in particular exactly once each when the table
exceeds one page, since surface forms are unique. -/
theorem getAllWords_spec (table : List VocabWord) :
    getAllWords table = wordsOrdered table
      ∧ (getAllWords table).Sorted vocabLe
      ∧ ∀ w, (getAllWords table).count w = table.count w := by
  have heq : getAllWords table = wordsOrdered table := by
    rw [getAllWords, getAllWordsLoop_eq, List.drop_zero]
  refine ⟨heq, ?_, ?_⟩
  · rw [heq]
    exact List.sorted_insertionSort vocabLe table
  · intro w
    rw [heq]
    exact (List.perm_insertionSort vocabLe table).count_eq w

end SpellingFox

namespace SpellingFox

/-! ## Content-generation gateway (`src/geminiService.ts`)

The four gateway functions call the generative-language service once and
handle its textual response.  The service and `JSON.parse` are external:
the response text arrives as an `Option String` (`response.text` may be
undefined or empty) and the platform JSON parser is a parameter
`parse : String → Option Json` (`none` = `JSON.parse` threw).  Only the
shape of the parsed value matters to the validation code. -/

/-- Shape of a parsed JSON value, as far as the gateway inspects it. -/
inductive Json where
  | arr : List Json → Json
  | other : Json

/-- Errors observable at the gateway boundary.  The `user*` constructors
are the descriptive `throw new Error(...)` cases of
`extractVocabularyFromFile`; `parseCrash` is an uncaught `JSON.parse`
SyntaxError escaping a function that does not guard the parse. -/
inductive GwError where
  | userMissingKey
  | userEmptyInput
  | userNoResponse
  | userParseFailed
  | userNoWords
  | parseCrash
deriving DecidableEq, Repr

/-- `response.text || dflt`: undefined and the empty string both fall back
to the default literal. -/
def textOrDefault (text : Option String) (dflt : String) : String :=
  match text with
  | none => dflt
  | some t => if t = "" then dflt else t

/-- `generateWordExplanation` (geminiService.ts:10-75): one call, then
`JSON.parse(response.text || "{}")` — no credential check, no input check,
no structural validation, no empty-result check. -/
def generateWordExplanation (parse : String → Option Json) (text : Option String) :
    Except GwError Json :=
  match parse (textOrDefault text "{}") with
  | none => .error .parseCrash
  | some v => .ok v

/-- `generateDailySpellingList` (geminiService.ts:80-120): parses
`response.text || "[]"` and maps ids onto the elements; a non-array parse
makes `.map` throw a TypeError.  No other checks. -/
def generateDailySpellingList (parse : String → Option Json) (text : Option String) :
    Except GwError (List Json) :=
  match parse (textOrDefault text "[]") with
  | none => .error .parseCrash
  | some (.arr xs) => .ok xs
  | some .other => .error .parseCrash

/-- `generateQuizQuestions` (geminiService.ts:240-273): returns
`JSON.parse(response.text || "[]")` directly.  No checks at all. -/
def generateQuizQuestions (parse : String → Option Json) (text : Option String) :
    Except GwError Json :=
  match parse (textOrDefault text "[]") with
  | none => .error .parseCrash
  | some v => .ok v

/-- `extractVocabularyFromFile` (geminiService.ts:125-238): checks the
credential, the input, the presence of response text, the parse, and that
the parsed value is a non-empty array — each failure a descriptive thrown
error. -/
def extractVocabularyFromFile (apiKey base64Data : String)
    (parse : String → Option Json) (text : Option String) :
    Except GwError (List Json) :=
  if apiKey = "" then .error .userMissingKey
  else if base64Data = "" then .error .userEmptyInput
  else
    match text with
    | none => .error .userNoResponse
    | some t =>
        if t = "" then .error .userNoResponse
        else
          match parse t with
          | none => .error .userParseFailed
          | some (.arr []) => .error .userNoWords
          | some (.arr (x :: xs)) => .ok (x :: xs)
          | some .other => .error .userNoWords

/-- A stand-in platform JSON parser knowing the two default literals. -/
def parseStub (s : String) : Option Json :=
  if s = "[]" then some (.arr [])
  else if s = "{}" then some .other
  else none

/-- C8 counterexample.  Three of the four gateway functions do not throw on
an empty result list (nor check credentials or input): with an empty
service response, `generateQuizQuestions` and `generateDailySpellingList`
return an empty list successfully, and `generateWordExplanation` returns an
empty object successfully — they never reach a user-displayable error. -/
theorem gateway_no_validation_cex :
    generateQuizQuestions parseStub none = .ok (.arr [])
      ∧ generateDailySpellingList parseStub none = .ok []
      ∧ generateWordExplanation parseStub none = .ok .other := by
  refine ⟨rfl, rfl, rfl⟩

/-- C8 amended.  Only `extractVocabularyFromFile` implements the claimed
error handling: it throws a descriptive error on a missing credential, on
empty input, on a missing/empty or non-JSON response, and on a result that
is not a non-empty array — succeeding exactly on a parsed non-empty array.
The other three functions perform none of these checks: they return
whatever parses from `response.text` (defaulting the empty response to
`"{}"`/`"[]"`), so an empty result is a successful return, and a non-JSON
response escapes as a raw parse exception rather than a crafted message. -/
theorem gateway_validation_amended :
    (∀ b p t, extractVocabularyFromFile "" b p t = .error .userMissingKey)
      ∧ (∀ k p t, k ≠ "" → extractVocabularyFromFile k "" p t = .error .userEmptyInput)
      ∧ (∀ k b p, k ≠ "" → b ≠ "" → extractVocabularyFromFile k b p none = .error .userNoResponse)
      ∧ (∀ k b p t, k ≠ "" → b ≠ "" → t ≠ "" → p t = none →
          extractVocabularyFromFile k b p (some t) = .error .userParseFailed)
      ∧ (∀ k b p t l, extractVocabularyFromFile k b p t = .ok l →
          l ≠ [] ∧ ∃ s, t = some s ∧ p s = some (.arr l))
      ∧ (∀ p v, p "[]" = some v → generateQuizQuestions p none = .ok v)
      ∧ (∀ p v, p "{}" = some v → generateWordExplanation p none = .ok v) := by
  refine ⟨?_, ?_, ?_, ?_, ?_, ?_, ?_⟩
  · intro b p t
    simp [extractVocabularyFromFile]
  · intro k p t hk
    simp [extractVocabularyFromFile, hk]
  · intro k b p hk hb
    simp [extractVocabularyFromFile, hk, hb]
  · intro k b p t hk hb ht hp
    simp [extractVocabularyFromFile, hk, hb, ht, hp]
  · intro k b p t l h
    unfold extractVocabularyFromFile at h
    split at h
    · exact absurd h (by simp)
    · split at h
      · exact absurd h (by simp)
      · split at h
        · exact absurd h (by simp)
        · rename_i s
          split at h
          · exact absurd h (by simp)
          · split at h
            · exact absurd h (by simp)
            · exact absurd h (by simp)
            · rename_i x xs heq
              refine ⟨by simp at h; simp [← h], s, rfl, ?_⟩
              rw [heq]
              simp at h
              rw [h]
            · exact absurd h (by simp)
  · intro p v hp
    simp [generateQuizQuestions, textOrDefault, hp]
  · intro p v hp
    simp [generateWordExplanation, textOrDefault, hp]

/-- Witness for C8: the amended behaviour at concrete inputs — a missing
key, a missing response and a successful nonempty extraction, plus the
unchecked quiz path at the stub parser. -/
theorem gateway_validation_amended_witness :
    extractVocabularyFromFile "" "data" parseStub (some "[]") = .error .userMissingKey
      ∧ extractVocabularyFromFile "key" "data" parseStub none = .error .userNoResponse
      ∧ generateQuizQuestions parseStub none = .ok (.arr []) :=
  ⟨gateway_validation_amended.1 "data" parseStub (some "[]"),
   gateway_validation_amended.2.2.1 "key" "data" parseStub
     (by decide) (by decide),
   gateway_validation_amended.2.2.2.2.2.1 parseStub (.arr []) (by rfl)⟩

end SpellingFox

namespace SpellingFox

/-! ## Voice transcript normalisation (`src/components/FlashcardQuest.tsx`)

`transcriptToLetter` (FlashcardQuest.tsx:2198-2211) normalises a recognised
transcript — `trim().toLowerCase().replace(/\s+/g, ' ')` — then tries, in
order: a single letter a-z, the pronunciation table (first with all
whitespace removed, then on the normalised text), and finally the first
character of the normalised text when it is a letter.  Whitespace is
modelled over the ASCII characters JS source text meets here. -/

/-- ASCII whitespace, standing in for the JS `\s` class / `trim()` set. -/
def isWsChar (c : Char) : Bool :=
  c = ' ' || c = '\t' || c = '\n' || c = '\r'

/-- `'a' ≤ c && c ≤ 'z'`. -/
def isLowerAlpha (c : Char) : Bool :=
  'a' ≤ c && c ≤ 'z'

/-- `trim()`. -/
def trimWs (l : List Char) : List Char :=
  ((l.dropWhile isWsChar).reverse.dropWhile isWsChar).reverse

/-- `replace(/\s+/g, ' ')`, character by character: the flag records
whether the previous character was whitespace, so each maximal whitespace
run contributes a single space. -/
def collapseWsAux : Bool → List Char → List Char
  | _, [] => []
  | prevWs, c :: cs =>
      if isWsChar c then
        if prevWs then collapseWsAux true cs
        else ' ' :: collapseWsAux true cs
      else c :: collapseWsAux false cs

/-- `replace(/\s+/g, ' ')`. -/
def collapseWs (l : List Char) : List Char :=
  collapseWsAux false l

/-- `transcript.trim().toLowerCase().replace(/\s+/g, ' ')`. -/
def normalizeTranscript (s : String) : List Char :=
  collapseWs ((trimWs s.toList).map Char.toLower)

/-- `LETTER_PRONUNCIATIONS` (FlashcardQuest.tsx:2169-2196), key order as in
the source object literal (each key occurs once). -/
def LETTER_PRONUNCIATIONS : List (String × Char) := [
  ("a", 'A'), ("aye", 'A'), ("ay", 'A'), ("aah", 'A'),
  ("b", 'B'), ("bee", 'B'), ("be", 'B'), ("bea", 'B'),
  ("c", 'C'), ("see", 'C'), ("cee", 'C'), ("sea", 'C'),
  ("d", 'D'), ("dee", 'D'), ("de", 'D'), ("da", 'D'),
  ("e", 'E'), ("ee", 'E'), ("eh", 'E'), ("ea", 'E'),
  ("f", 'F'), ("eff", 'F'), ("if", 'F'),
  ("g", 'G'), ("gee", 'G'), ("ji", 'G'),
  ("h", 'H'), ("aitch", 'H'), ("haych", 'H'),
  ("i", 'I'), ("eye", 'I'),
  ("j", 'J'), ("jay", 'J'), ("ja", 'J'),
  ("k", 'K'), ("kay", 'K'), ("ok", 'K'),
  ("l", 'L'), ("el", 'L'), ("ell", 'L'), ("al", 'L'),
  ("m", 'M'), ("em", 'M'), ("me", 'M'), ("am", 'M'),
  ("n", 'N'), ("en", 'N'), ("an", 'N'), ("in", 'N'),
  ("o", 'O'), ("oh", 'O'), ("ow", 'O'),
  ("p", 'P'), ("pee", 'P'), ("pea", 'P'), ("pa", 'P'),
  ("q", 'Q'), ("cue", 'Q'), ("queue", 'Q'), ("kew", 'Q'),
  ("r", 'R'), ("ar", 'R'), ("ah", 'R'), ("are", 'R'), ("or", 'R'),
  ("s", 'S'), ("ess", 'S'), ("es", 'S'), ("is", 'S'), ("as", 'S'),
  ("t", 'T'), ("tee", 'T'), ("tea", 'T'), ("the", 'T'), ("ta", 'T'),
  ("u", 'U'), ("you", 'U'), ("yew", 'U'), ("yoo", 'U'),
  ("v", 'V'), ("vee", 'V'), ("ve", 'V'),
  ("w", 'W'), ("double", 'W'), ("doubleyou", 'W'), ("dubya", 'W'), ("doubleu", 'W'),
  ("x", 'X'), ("ex", 'X'), ("ax", 'X'),
  ("y", 'Y'), ("why", 'Y'), ("wye", 'Y'), ("wy", 'Y'),
  ("z", 'Z'), ("zed", 'Z'), ("zee", 'Z'), ("ze", 'Z')]

/-- Table lookup by exact key. -/
def lookupPron (key : String) : Option Char :=
  (LETTER_PRONUNCIATIONS.find? (fun p => p.1 == key)).map (fun p => p.2)

/-- `LETTER_PRONUNCIATIONS[word] || LETTER_PRONUNCIATIONS[t]`: the key with
all whitespace removed first, then the normalised text itself. -/
def pronLookupCombined (t : List Char) : Option Char :=
  match lookupPron (String.mk (t.filter (fun c => !isWsChar c))) with
  | some l => some l
  | none => lookupPron (String.mk t)

/-- `const first = t[0]; if (first >= 'a' && first <= 'z') return
first.toUpperCase(); return null;` — the source's fallback. -/
def firstCharIfAlpha (t : List Char) : Option Char :=
  match t with
  | [] => none
  | c :: _ => if isLowerAlpha c then some c.toUpper else none

/-- `transcriptToLetter` on the normalised text: single letter a-z,
otherwise the table, otherwise the first-character fallback (a single
character outside a-z also falls through to the table). -/
def transcriptToLetterCore : List Char → Option Char
  | [] => none
  | [c] =>
      if isLowerAlpha c then some c.toUpper
      else
        match pronLookupCombined [c] with
        | some l => some l
        | none => firstCharIfAlpha [c]
  | c :: d :: ds =>
      match pronLookupCombined (c :: d :: ds) with
      | some l => some l
      | none => firstCharIfAlpha (c :: d :: ds)

/-- `transcriptToLetter` (FlashcardQuest.tsx:2198-2211). -/
def transcriptToLetter (s : String) : Option Char :=
  transcriptToLetterCore (normalizeTranscript s)

/-- The claim's reading of the fallback: when no table entry matches, the
candidate defaults to the first *alphabetic* character heard, wherever it
sits in the transcript. -/
def firstAlphaChar (t : List Char) : Option Char :=
  (t.find? isLowerAlpha).map Char.toUpper

/-- The normalisation the claim describes: identical to the source except
for the fallback clause. -/
def transcriptToLetterClaimed (s : String) : Option Char :=
  match normalizeTranscript s with
  | [] => none
  | [c] =>
      if isLowerAlpha c then some c.toUpper
      else
        match pronLookupCombined [c] with
        | some l => some l
        | none => firstAlphaChar [c]
  | c :: d :: ds =>
      match pronLookupCombined (c :: d :: ds) with
      | some l => some l
      | none => firstAlphaChar (c :: d :: ds)

/-- C9 counterexample.  On the transcript "1a" — no table entry, not a
single letter — the source returns no letter at all (the first character
`'1'` is not alphabetic), while the claimed rule "default to the first
alphabetic character heard" produces `'A'`. -/
theorem transcriptToLetter_claim_cex :
    transcriptToLetter "1a" = none
      ∧ transcriptToLetterClaimed "1a" = some 'A'
      ∧ (none : Option Char) ≠ some 'A' := by
  refine ⟨by decide, by decide, by decide⟩

/-- C9 amended.  The three normalisation rules as the code implements them:
a single alphabetic character maps to its uppercase letter; otherwise the
pronunciation table is consulted (whitespace-stripped key first, then the
normalised text); and when no table entry matches, the candidate defaults
to the *first character* of the normalised transcript when that character
is alphabetic — otherwise no letter is produced. -/
theorem transcriptToLetter_amended :
    (∀ s c, normalizeTranscript s = [c] → isLowerAlpha c = true →
        transcriptToLetter s = some c.toUpper)
      ∧ (∀ s l, normalizeTranscript s ≠ [] →
          (∀ c, normalizeTranscript s = [c] → isLowerAlpha c = false) →
          pronLookupCombined (normalizeTranscript s) = some l →
          transcriptToLetter s = some l)
      ∧ (∀ s, normalizeTranscript s ≠ [] →
          (∀ c, normalizeTranscript s = [c] → isLowerAlpha c = false) →
          pronLookupCombined (normalizeTranscript s) = none →
          transcriptToLetter s = firstCharIfAlpha (normalizeTranscript s)) := by
  refine ⟨?_, ?_, ?_⟩
  · intro s c h ha
    simp [transcriptToLetter, h, transcriptToLetterCore, ha]
  · intro s l hne hsingle hlook
    cases h : normalizeTranscript s with
    | nil => exact absurd h hne
    | cons c rest =>
        rw [h] at hlook
        cases rest with
        | nil =>
            have ha := hsingle c h
            simp [transcriptToLetter, h, transcriptToLetterCore, ha, hlook]
        | cons d ds =>
            simp [transcriptToLetter, h, transcriptToLetterCore, hlook]
  · intro s hne hsingle hlook
    cases h : normalizeTranscript s with
    | nil => exact absurd h hne
    | cons c rest =>
        rw [h] at hlook
        cases rest with
        | nil =>
            have ha := hsingle c h
            simp [transcriptToLetter, h, transcriptToLetterCore, ha, hlook]
        | cons d ds =>
            simp [transcriptToLetter, h, transcriptToLetterCore, hlook]

/-- Witness for C9: the fallback clause at the transcript "1a" (no single
letter, no table entry): the code yields no candidate because the first
normalised character `'1'` is not alphabetic. -/
theorem transcriptToLetter_amended_witness :
    transcriptToLetter "1a" = firstCharIfAlpha (normalizeTranscript "1a") :=
  transcriptToLetter_amended.2.2 "1a" (by decide)
    (fun c h => by
      rw [show normalizeTranscript "1a" = ['1', 'a'] from by decide] at h
      exact absurd h (by simp))
    (by decide)

end SpellingFox

namespace SpellingFox

/-! ## Choosing among recognition alternatives
(`pickLetterFromResult`, FlashcardQuest.tsx:2213-2228)

The recogniser hands back up to `maxAlternatives` transcripts for one
result; the source walks them in order, remembers the first alternative
that normalises to any letter, and returns immediately on one that
normalises to the expected letter. -/

/-- The loop of `pickLetterFromResult`, with the `firstValid` accumulator. -/
def pickLetterGo (expected : Char) : List String → Option Char → Option Char
  | [], firstValid => firstValid
  | a :: rest, firstValid =>
      match transcriptToLetter a with
      | none => pickLetterGo expected rest firstValid
      | some l =>
          if l = expected then some l
          else pickLetterGo expected rest
            (if firstValid = none then some l else firstValid)

/-- `pickLetterFromResult`: alternatives are passed as their transcripts
(`result[i]?.transcript ?? ''` — a missing transcript is the empty string,
which normalises to no letter). -/
def pickLetterFromResult (alts : List String) (expected : Char) : Option Char :=
  pickLetterGo expected alts none

theorem pickLetterGo_eq (expected : Char) (alts : List String) :
    ∀ fv, pickLetterGo expected alts fv =
      if alts.any (fun a => transcriptToLetter a == some expected) then some expected
      else fv.orElse (fun _ => (alts.filterMap transcriptToLetter).head?) := by
  induction alts with
  | nil =>
      intro fv
      cases fv <;> simp [pickLetterGo]
  | cons a rest ih =>
      intro fv
      cases hl : transcriptToLetter a with
      | none =>
          simp only [pickLetterGo, hl, ih, List.any_cons, List.filterMap_cons_none hl]
          simp [hl]
      | some l =>
          by_cases he : l = expected
          · subst he
            simp [pickLetterGo, hl]
          · have hne : (some l == some expected) = false := by simp [he]
            simp only [pickLetterGo, hl, if_neg he, ih, List.any_cons,
              List.filterMap_cons_some hl, hne, Bool.false_or]
            by_cases hany : rest.any (fun a => transcriptToLetter a == some expected)
            · simp [hany]
            · simp only [hany, Bool.false_eq_true, if_false]
              cases fv <;> simp

/-- C10.  Ambiguity resolves in the student's favour: the chosen candidate
is the expected letter whenever any alternative normalises to it; only
otherwise is it the first alternative normalising to any letter, and no
candidate when none does. -/
theorem pickLetter_spec (alts : List String) (expected : Char) :
    pickLetterFromResult alts expected =
      if alts.any (fun a => transcriptToLetter a == some expected) then some expected
      else (alts.filterMap transcriptToLetter).head? := by
  rw [pickLetterFromResult, pickLetterGo_eq]
  by_cases h : alts.any (fun a => transcriptToLetter a == some expected) <;> simp [h]

end SpellingFox

namespace SpellingFox

/-! ## The typed-dictation spelling bee (`src/components/SpellingBeeModal.tsx`)

The component is an event-driven state machine.  Its React state fields are
carried verbatim (`queue`, `hadMistakeOnCurrentWord`, `score`,
`gameState`, `typedLetters`, `wordResults`); in addition the state records
the observable history needed to express the claims — the `onFinish`
invocations, the per-attempt rejected-candidate counts, and running event
totals.  These history fields are write-only instrumentation: no guard or
update of a source-mirrored field reads them.

Events are the component's enabled user interactions.  Every interactive
element is rendered only when `currentWord` (`queue[0]`) exists — with an
empty queue the component shows only the "Completing…" placeholder — so
each handler is guarded by a non-empty queue exactly as the JSX guards it:
`handleKeyDown` additionally requires `gameState === 'typing'`, the
preview button (`startPlaying`) renders in `preview`, and the NEXT WORD
button (`nextWord`) renders in `feedback`.

Scoring runs over `Int` so that non-negativity is a theorem, not a type
artefact: `+10` per accepted letter, `Math.max(0, s - 10)` per rejected
one, and `+200` queued inside the `setTypedLetters` updater when the
completed word is entirely correct (in that case the final letter is
correct, so the two queued additions commute). -/

/-- A word as handed to the modal: `{ id, word }` of `WordEntry`. -/
structure GameWord where
  id : String
  word : String
deriving DecidableEq, Repr

/-- One slot of `typedLetters`: the letter typed and whether it matched. -/
structure TypedLetter where
  letter : Char
  correct : Bool
deriving DecidableEq, Repr

/-- `WordPracticeResult` (supabaseQueries.ts:360-364). -/
structure WordPracticeResult where
  wordId : String
  word : String
  correct : Bool
deriving DecidableEq, Repr

/-- `gameState` of the typed-dictation bee. -/
inductive BeeGameState where
  | preview
  | typing
  | feedback
  | starting
deriving DecidableEq, Repr

/-- One `onFinish(points, results)` invocation. -/
structure FinishCall where
  points : Int
  results : List WordPracticeResult
deriving DecidableEq, Repr

/-- History record of one completed attempt (one `nextWord` call): the
word it was for and how many rejected candidates the attempt had. -/
structure AttemptRecord where
  wordId : String
  word : String
  rejects : Nat
deriving DecidableEq, Repr

/-- `currentWord.word.toUpperCase().split('')`. -/
def targetLetters (w : GameWord) : List Char :=
  w.word.toList.map Char.toUpper

/-- The component state.  Fields up to `wordResults` mirror the React
state; the rest is observable history (instrumentation). -/
structure BeeState where
  queue : List GameWord
  hadMistakeOnCurrentWord : Bool
  score : Int
  gameState : BeeGameState
  typedLetters : List TypedLetter
  wordResults : List WordPracticeResult
  finishCalls : List FinishCall
  attemptRejects : Nat
  attempts : List AttemptRecord
  totalAccepted : Nat
  totalRejected : Nat
  totalCompletions : Nat
  totalCleanCompletions : Nat
  flooredEver : Bool
deriving DecidableEq, Repr

/-- Mount state (SpellingBeeModal.tsx:14-26). -/
def beeInit (ws : List GameWord) : BeeState where
  queue := ws
  hadMistakeOnCurrentWord := false
  score := 0
  gameState := if ws.isEmpty then .starting else .preview
  typedLetters := []
  wordResults := []
  finishCalls := []
  attemptRejects := 0
  attempts := []
  totalAccepted := 0
  totalRejected := 0
  totalCompletions := 0
  totalCleanCompletions := 0
  flooredEver := false

/-- User interactions the rendered component accepts. -/
inductive BeeEvent where
  | startPlaying
  | key (k : String)
  | next
deriving DecidableEq, Repr

/-- The state change of one processed keystroke, in terms of the three
booleans the handler computes: `correct` (`key === expected`), `complete`
(`next.length === targetLetters.length`) and `allCorrect`
(`next.every(t => t.correct)`).  The slot record is appended, completion
moves to `feedback` and queues the +200 bonus inside the updater (so it
lands before the ±10), and the score takes +10 or a -10 floored at 0. -/
def beeKeyCore (s : BeeState) (c : Char) (correct complete allCorrect : Bool) : BeeState :=
  { s with
    typedLetters := s.typedLetters ++ [⟨c, correct⟩]
    gameState := if complete then .feedback else s.gameState
    score :=
      if correct then s.score + (if complete && allCorrect then 200 else 0) + 10
      else max 0 (s.score + (if complete && allCorrect then 200 else 0) - 10)
    hadMistakeOnCurrentWord := s.hadMistakeOnCurrentWord || !correct
    attemptRejects := s.attemptRejects + (if correct then 0 else 1)
    totalAccepted := s.totalAccepted + (if correct then 1 else 0)
    totalRejected := s.totalRejected + (if correct then 0 else 1)
    totalCompletions := s.totalCompletions + (if complete then 1 else 0)
    totalCleanCompletions :=
      s.totalCleanCompletions + (if complete && allCorrect then 1 else 0)
    flooredEver :=
      s.flooredEver
        || (!correct
            && decide (s.score + (if complete && allCorrect then 200 else 0) < 10)) }

/-- `handleKeyDown` (SpellingBeeModal.tsx:39-70) for the current word `w`:
uppercase the key, require a single character A-Z, then process the
keystroke against the open slot `targetLetters[typedLetters.length]`. -/
def beeKey (s : BeeState) (w : GameWord) (k : String) : BeeState :=
  if s.typedLetters.length ≥ (targetLetters w).length then s
  else
    match k.toList.map Char.toUpper with
    | [c] =>
        if c < 'A' ∨ 'Z' < c then s
        else
          beeKeyCore s c (c == (targetLetters w).getD s.typedLetters.length 'A')
            ((s.typedLetters
                ++ [(⟨c, c == (targetLetters w).getD s.typedLetters.length 'A'⟩ :
                  TypedLetter)]).length
              == (targetLetters w).length)
            ((s.typedLetters
                ++ [(⟨c, c == (targetLetters w).getD s.typedLetters.length 'A'⟩ :
                  TypedLetter)]).all
              (fun t => t.correct))
    | _ => s

/-- `nextWord` (SpellingBeeModal.tsx:100-117), plus the
`[advanceCounter, resetLevel]` effect (lines 72-80) that, when a next word
exists, clears the slots and returns to `preview`.  When the queue
empties, `onFinish(score, nextResults)` fires. -/
def beeNext (s : BeeState) (w : GameWord) (rest : List GameWord) : BeeState :=
  let result : WordPracticeResult := ⟨w.id, w.word, !s.hadMistakeOnCurrentWord⟩
  let nextResults := s.wordResults ++ [result]
  let nextQueue := if s.hadMistakeOnCurrentWord then rest ++ [w] else rest
  { s with
    wordResults := nextResults
    queue := nextQueue
    hadMistakeOnCurrentWord := false
    attempts := s.attempts ++ [⟨w.id, w.word, s.attemptRejects⟩]
    attemptRejects := 0
    typedLetters := if nextQueue.isEmpty then s.typedLetters else []
    gameState := if nextQueue.isEmpty then s.gameState else .preview
    finishCalls :=
      if nextQueue.isEmpty then s.finishCalls ++ [⟨s.score, nextResults⟩]
      else s.finishCalls }

/-- One step of the component: with an empty queue nothing is rendered but
the placeholder, so every event is inert; otherwise events dispatch to the
handler their UI element calls, under that element's render guard. -/
def beeStep (s : BeeState) (e : BeeEvent) : BeeState :=
  match s.queue with
  | [] => s
  | w :: rest =>
      match e with
      | .startPlaying =>
          if s.gameState = .preview then { s with gameState := .typing } else s
      | .key k =>
          if s.gameState = .typing then beeKey s w k else s
      | .next =>
          if s.gameState = .feedback then beeNext s w rest else s

/-- A session: the mount state driven by a sequence of interactions. -/
def beeRun (ws : List GameWord) (evs : List BeeEvent) : BeeState :=
  List.foldl beeStep (beeInit ws) evs

/-- What the component shows. -/
inductive BeeView where
  | completing
  | game (gs : BeeGameState)
deriving DecidableEq, Repr

/-- Render (SpellingBeeModal.tsx:124-130): with no current word, only the
"Completing…" placeholder. -/
def beeRender (s : BeeState) : BeeView :=
  if s.queue.isEmpty then .completing else .game s.gameState

end SpellingFox

namespace SpellingFox

/-- The record `nextWord` emits for an attempt: `correct` exactly when the
attempt had no rejected candidate. -/
def attemptToResult (a : AttemptRecord) : WordPracticeResult :=
  ⟨a.wordId, a.word, a.rejects == 0⟩

/-- Session invariant of the typed-dictation bee, relative to the supplied
word list `ws`. -/
structure BeeInv (ws : List GameWord) (s : BeeState) : Prop where
  score_nonneg : 0 ≤ s.score
  score_formula : s.flooredEver = false →
    s.score = 10 * (s.totalAccepted : Int) - 10 * (s.totalRejected : Int)
      + 200 * (s.totalCleanCompletions : Int)
  mistake_iff : s.hadMistakeOnCurrentWord = true ↔ s.attemptRejects ≠ 0
  results_attempts : s.wordResults = s.attempts.map attemptToResult
  queue_sub : ∀ x ∈ s.queue, x ∈ ws
  coverage : ∀ w ∈ ws,
    w ∈ s.queue ∨ ∃ r ∈ s.wordResults, r.wordId = w.id ∧ r.word = w.word
  results_from : ∀ r ∈ s.wordResults,
    ∃ w ∈ ws, r.wordId = w.id ∧ r.word = w.word
  finish_len : s.finishCalls.length ≤ 1
  finish_queue : s.finishCalls ≠ [] → s.queue = []
  finish_vals : ∀ f ∈ s.finishCalls, f.points = s.score ∧ f.results = s.wordResults

theorem beeInv_init (ws : List GameWord) : BeeInv ws (beeInit ws) where
  score_nonneg := le_refl 0
  score_formula := fun _ => by simp [beeInit]
  mistake_iff := by simp [beeInit]
  results_attempts := rfl
  queue_sub := fun x hx => hx
  coverage := fun w hw => Or.inl hw
  results_from := by simp [beeInit]
  finish_len := by simp [beeInit]
  finish_queue := by simp [beeInit]
  finish_vals := by simp [beeInit]

theorem beeKeyCore_inv (ws : List GameWord) (s : BeeState) (c : Char)
    (correct complete allCorrect : Bool)
    (hfin : s.finishCalls = [])
    (himp : allCorrect = true → correct = true)
    (h : BeeInv ws s) : BeeInv ws (beeKeyCore s c correct complete allCorrect) := by
  obtain ⟨hnn, hform, hmi, hra, hqs, hcov, hrf, hfl, hfq, hfv⟩ := h
  cases correct with
  | true =>
      cases complete <;> cases allCorrect <;>
        refine ⟨?_, ?_, ?_, hra, hqs, hcov, hrf, hfl, hfq, ?_⟩ <;>
        simp only [beeKeyCore, Bool.and_self, Bool.and_true, Bool.and_false,
          Bool.not_true, Bool.false_and, Bool.or_false, if_true, if_false,
          Bool.true_and, Bool.and_self] <;>
        first
        | (intro f hf; rw [hfin] at hf; exact absurd hf (List.not_mem_nil f))
        | omega
        | (intro hfe
           have hbase := hform hfe
           push_cast
           push_cast at hbase
           omega)
        | simpa using hmi
  | false =>
      have hac : allCorrect = false := by
        cases hac : allCorrect with
        | false => rfl
        | true => exact absurd (himp hac) (by simp)
      subst hac
      cases complete <;>
        refine ⟨?_, ?_, ?_, hra, hqs, hcov, hrf, hfl, hfq, ?_⟩ <;>
        simp only [beeKeyCore, Bool.and_false, Bool.not_false, Bool.true_and,
          if_false, Bool.false_eq_true, add_zero] <;>
        first
        | (intro f hf; rw [hfin] at hf; exact absurd hf (List.not_mem_nil f))
        | exact le_max_left 0 _
        | (intro hfe
           rw [Bool.or_eq_false_iff] at hfe
           obtain ⟨hfe0, hfe1⟩ := hfe
           have hbase := hform hfe0
           simp only [decide_eq_false_iff_not, not_lt] at hfe1
           rw [max_eq_right (by omega)]
           push_cast
           push_cast at hbase
           omega)
        | simp

theorem beeKey_inv (ws : List GameWord) (s : BeeState) (w : GameWord) (k : String)
    (hfin : s.finishCalls = [])
    (h : BeeInv ws s) : BeeInv ws (beeKey s w k) := by
  unfold beeKey
  split
  · exact h
  · cases hk : k.toList.map Char.toUpper with
    | nil => exact h
    | cons c cs =>
        cases cs with
        | cons d ds => exact h
        | nil =>
            show BeeInv ws
              (if c < 'A' ∨ 'Z' < c then s
               else
                 beeKeyCore s c (c == (targetLetters w).getD s.typedLetters.length 'A')
                   ((s.typedLetters
                       ++ [(⟨c, c == (targetLetters w).getD s.typedLetters.length 'A'⟩ :
                         TypedLetter)]).length
                     == (targetLetters w).length)
                   ((s.typedLetters
                       ++ [(⟨c, c == (targetLetters w).getD s.typedLetters.length 'A'⟩ :
                         TypedLetter)]).all
                     (fun t => t.correct)))
            split
            · exact h
            · apply beeKeyCore_inv ws s c _ _ _ hfin _ h
              intro hall
              have := List.all_eq_true.mp hall
                ⟨c, c == (targetLetters w).getD s.typedLetters.length 'A'⟩ (by simp)
              simpa using this

end SpellingFox

namespace SpellingFox

theorem beeNext_inv (ws : List GameWord) (s : BeeState) (w : GameWord) (rest : List GameWord)
    (hq : s.queue = w :: rest) (hfin : s.finishCalls = [])
    (h : BeeInv ws s) : BeeInv ws (beeNext s w rest) := by
  obtain ⟨hnn, hform, hmi, hra, hqs, hcov, hrf, hfl, hfq, hfv⟩ := h
  have hw : w ∈ ws := hqs w (by rw [hq]; exact List.mem_cons_self w rest)
  have hrest : ∀ x ∈ rest, x ∈ ws := fun x hx =>
    hqs x (by rw [hq]; exact List.mem_cons_of_mem w hx)
  have hcb : (!s.hadMistakeOnCurrentWord) = (s.attemptRejects == 0) := by
    cases hm : s.hadMistakeOnCurrentWord with
    | true =>
        have hne := hmi.mp hm
        simp [hne]
    | false =>
        have hz : s.attemptRejects = 0 := by
          by_contra hnz
          rw [hmi.mpr hnz] at hm
          exact absurd hm (by decide)
        simp [hz]
  have hresapp : ∀ b : Bool, b = (!s.hadMistakeOnCurrentWord) →
      s.wordResults ++ [(⟨w.id, w.word, b⟩ : WordPracticeResult)]
        = (s.attempts ++ [(⟨w.id, w.word, s.attemptRejects⟩ : AttemptRecord)]).map
            attemptToResult := by
    intro b hb
    rw [List.map_append, ← hra]
    simp [attemptToResult, hb, hcb]
  have hcovnew : ∀ (b : Bool) (w' : GameWord), w' ∈ ws →
      w' ∈ s.queue ∨ ∃ r ∈ s.wordResults ++ [(⟨w.id, w.word, b⟩ : WordPracticeResult)],
        r.wordId = w'.id ∧ r.word = w'.word := by
    intro b w' hw'
    rcases hcov w' hw' with hl | hr
    · exact Or.inl hl
    · obtain ⟨r, hrm, hri⟩ := hr
      exact Or.inr ⟨r, List.mem_append.mpr (Or.inl hrm), hri⟩
  have hrfnew : ∀ (b : Bool) (r : WordPracticeResult),
      r ∈ s.wordResults ++ [(⟨w.id, w.word, b⟩ : WordPracticeResult)] →
      ∃ w' ∈ ws, r.wordId = w'.id ∧ r.word = w'.word := by
    intro b r hrm
    rcases List.mem_append.mp hrm with hrm | hrm
    · exact hrf r hrm
    · rw [List.mem_singleton] at hrm
      subst hrm
      exact ⟨w, hw, rfl, rfl⟩
  simp only [beeNext]
  cases hmb : s.hadMistakeOnCurrentWord with
  | true =>
      have hne : ((rest ++ [w]).isEmpty) = false := by cases rest <;> simp
      simp only [hmb, hne, if_true, Bool.false_eq_true, if_false, hfin, Bool.not_true]
      refine ⟨hnn, hform, by simp, hresapp false (by rw [hmb]; rfl), ?_,
        ?_, hrfnew false, by simp, by simp, by simp⟩
      · intro x hx
        rcases List.mem_append.mp hx with hx | hx
        · exact hrest x hx
        · rw [List.mem_singleton] at hx
          subst hx
          exact hw
      · intro w' hw'
        rcases hcovnew false w' hw' with hl | hr
        · rw [hq] at hl
          rcases List.mem_cons.mp hl with rfl | hl
          · exact Or.inl (List.mem_append.mpr (Or.inr (List.mem_singleton.mpr rfl)))
          · exact Or.inl (List.mem_append.mpr (Or.inl hl))
        · exact Or.inr hr
  | false =>
      cases hres : rest with
      | nil =>
          simp only [hmb, Bool.false_eq_true, if_false, List.isEmpty_nil, if_true, hfin,
            List.nil_append, Bool.not_false]
          refine ⟨hnn, hform, by simp, hresapp true (by rw [hmb]; rfl), by simp, ?_,
            hrfnew true, by simp, fun _ => rfl, ?_⟩
          · intro w' hw'
            rcases hcovnew true w' hw' with hl | hr
            · rw [hq, hres] at hl
              rw [List.mem_singleton] at hl
              subst hl
              exact Or.inr ⟨_, List.mem_append.mpr (Or.inr (List.mem_singleton.mpr rfl)),
                rfl, rfl⟩
            · exact Or.inr hr
          · intro f hf
            rw [List.mem_singleton] at hf
            subst hf
            exact ⟨rfl, rfl⟩
      | cons r0 rs =>
          simp only [hmb, Bool.false_eq_true, if_false, List.isEmpty_cons, hfin,
            Bool.not_false]
          refine ⟨hnn, hform, by simp, hresapp true (by rw [hmb]; rfl), ?_, ?_,
            hrfnew true, by simp, by simp, by simp⟩
          · intro x hx
            exact hrest x (hres ▸ hx)
          · intro w' hw'
            rcases hcovnew true w' hw' with hl | hr
            · rw [hq] at hl
              rcases List.mem_cons.mp hl with rfl | hl
              · exact Or.inr ⟨_, List.mem_append.mpr (Or.inr (List.mem_singleton.mpr rfl)),
                  rfl, rfl⟩
              · exact Or.inl (hres ▸ hl)
            · exact Or.inr hr

end SpellingFox

namespace SpellingFox

theorem beeStep_inv (ws : List GameWord) (s : BeeState) (e : BeeEvent)
    (h : BeeInv ws s) : BeeInv ws (beeStep s e) := by
  cases hq : s.queue with
  | nil =>
      simp only [beeStep, hq]
      exact h
  | cons w rest =>
      have hfin : s.finishCalls = [] := by
        by_contra hne
        have h2 := h.finish_queue hne
        rw [hq] at h2
        exact List.cons_ne_nil w rest h2
      cases e with
      | startPlaying =>
          simp only [beeStep, hq]
          by_cases hgs : s.gameState = BeeGameState.preview
          · rw [if_pos hgs]
            refine ⟨h.score_nonneg, h.score_formula, h.mistake_iff, h.results_attempts,
              ?_, ?_, h.results_from, h.finish_len, ?_, h.finish_vals⟩
            · exact hq ▸ h.queue_sub
            · exact hq ▸ h.coverage
            · intro hne
              exact absurd hfin hne
          · rw [if_neg hgs]
            exact h
      | key k =>
          simp only [beeStep, hq]
          by_cases hgs : s.gameState = BeeGameState.typing
          · rw [if_pos hgs]
            exact beeKey_inv ws s w k hfin h
          · rw [if_neg hgs]
            exact h
      | next =>
          simp only [beeStep, hq]
          by_cases hgs : s.gameState = BeeGameState.feedback
          · rw [if_pos hgs]
            exact beeNext_inv ws s w rest hq hfin h
          · rw [if_neg hgs]
            exact h

theorem beeRun_inv (ws : List GameWord) (evs : List BeeEvent) :
    BeeInv ws (beeRun ws evs) := by
  have : ∀ (s : BeeState), BeeInv ws s → BeeInv ws (List.foldl beeStep s evs) := by
    induction evs with
    | nil => exact fun s hs => hs
    | cons e rest ih => exact fun s hs => ih (beeStep s e) (beeStep_inv ws s e hs)
  exact this (beeInit ws) (beeInv_init ws)

end SpellingFox

namespace SpellingFox

/-- C1 (amended).  The completion callback fires at most once per session;
when it fires it carries an integer score ≥ 0 and an ordered result list in
which every supplied word has at least one {wordId, surfaceForm, correct}
entry and every entry belongs to a supplied word.  (One entry is emitted
per completed attempt, so a word retried after mistakes appears once per
attempt — see the counterexample for the "exactly one per distinct word"
reading.) -/
theorem bee_finish_contract (ws : List GameWord) (evs : List BeeEvent) :
    (beeRun ws evs).finishCalls.length ≤ 1
      ∧ ∀ f ∈ (beeRun ws evs).finishCalls,
          0 ≤ f.points
            ∧ (∀ w ∈ ws, ∃ r ∈ f.results, r.wordId = w.id ∧ r.word = w.word)
            ∧ (∀ r ∈ f.results, ∃ w ∈ ws, r.wordId = w.id ∧ r.word = w.word) := by
  have h := beeRun_inv ws evs
  refine ⟨h.finish_len, ?_⟩
  intro f hf
  obtain ⟨hp, hres⟩ := h.finish_vals f hf
  have hqe : (beeRun ws evs).queue = [] := by
    refine h.finish_queue ?_
    intro hnil
    rw [hnil] at hf
    exact absurd hf (List.not_mem_nil f)
  refine ⟨hp ▸ h.score_nonneg, ?_, ?_⟩
  · intro w hw
    rcases h.coverage w hw with hl | hr
    · rw [hqe] at hl
      exact absurd hl (List.not_mem_nil w)
    · rw [hres]
      exact hr
  · intro r hr
    rw [hres] at hr
    exact h.results_from r hr

/-- Witness for C1: a one-word session finished cleanly — one finish call,
score 210, one entry for the one supplied word. -/
theorem bee_finish_contract_witness :
    0 ≤ (FinishCall.mk 210 [⟨"cw1", "A", true⟩]).points
      ∧ (∀ w ∈ [(⟨"cw1", "A"⟩ : GameWord)],
          ∃ r ∈ (FinishCall.mk 210 [⟨"cw1", "A", true⟩]).results,
            r.wordId = w.id ∧ r.word = w.word)
      ∧ (∀ r ∈ (FinishCall.mk 210 [⟨"cw1", "A", true⟩]).results,
          ∃ w ∈ [(⟨"cw1", "A"⟩ : GameWord)], r.wordId = w.id ∧ r.word = w.word) :=
  (bee_finish_contract [⟨"cw1", "A"⟩] [.startPlaying, .key "A", .next]).2
    ⟨210, [⟨"cw1", "A", true⟩]⟩ (by decide)

/-- C1 counterexample.  One supplied word, first attempt with a mistake,
clean retry: the finish callback's result list carries TWO entries for the
single distinct word — not exactly one entry per distinct word. -/
theorem bee_per_attempt_cex :
    (∃ f ∈ (beeRun [⟨"w1", "AB"⟩]
        [.startPlaying, .key "X", .key "B", .next,
         .startPlaying, .key "A", .key "B", .next]).finishCalls,
      f.results.countP (fun r => r.wordId == "w1") = 2)
      ∧ ([(⟨"w1", "AB"⟩ : GameWord)]).length = 1 := by
  refine ⟨?_, rfl⟩
  decide

/-- C2 (amended; scoped to the result-reporting variants).  A word has a
`correct = true` entry in the finish-callback result exactly when some
attempt at it had zero rejected candidates; an attempt with any mistake
contributes a `correct = false` entry and requeues the word. -/
theorem bee_correct_iff_clean_attempt (ws : List GameWord) (evs : List BeeEvent)
    (wid : String) (f : FinishCall) (hf : f ∈ (beeRun ws evs).finishCalls) :
    (∃ r ∈ f.results, r.wordId = wid ∧ r.correct = true)
      ↔ ∃ a ∈ (beeRun ws evs).attempts, a.wordId = wid ∧ a.rejects = 0 := by
  have h := beeRun_inv ws evs
  obtain ⟨_, hres⟩ := h.finish_vals f hf
  rw [hres, h.results_attempts]
  constructor
  · rintro ⟨r, hrm, hid, hc⟩
    rcases List.mem_map.mp hrm with ⟨a, ham, rfl⟩
    refine ⟨a, ham, hid, ?_⟩
    simpa [attemptToResult] using hc
  · rintro ⟨a, ham, hid, hz⟩
    refine ⟨attemptToResult a, List.mem_map_of_mem _ ham, hid, ?_⟩
    simp [attemptToResult, hz]

/-- Witness for C2: in a clean one-word session the word's entry is
`correct = true` and its single attempt has zero rejects. -/
theorem bee_correct_iff_clean_attempt_witness :
    (∃ r ∈ (FinishCall.mk 210 [⟨"cw2", "A", true⟩]).results,
        r.wordId = "cw2" ∧ r.correct = true)
      ↔ ∃ a ∈ (beeRun [⟨"cw2", "A"⟩] [.startPlaying, .key "A", .next]).attempts,
          a.wordId = "cw2" ∧ a.rejects = 0 :=
  bee_correct_iff_clean_attempt [⟨"cw2", "A"⟩] [.startPlaying, .key "A", .next] "cw2"
    ⟨210, [⟨"cw2", "A", true⟩]⟩ (by decide)

end SpellingFox

namespace SpellingFox

/-! ## The grid-collection ("snake") game (`src/components/SpellingModal.tsx`)

The queue/score logic mirrors the component's state; snake geometry and the
random placement of letters are irrelevant to the claims, so a session is
driven by the outcome of each letter collision: steering onto the correct
cell (`moveSnake`'s correct-collision branch, lines 141-185) or onto a
wrong letter (lines 186-194).  `nextWord` (lines 248-258) requeues a
mistaken word exactly like the bee variant, but the finish callback's type
is `onFinish(points: number)` — it carries NO per-word result list: the
optional `wordResults` parameter the dashboards accept stays undefined. -/

inductive GridGameState where
  | preview
  | playing
  | feedback
  | starting
deriving DecidableEq, Repr

/-- One `onFinish` invocation as the caller sees it: the points and the
optional results parameter (always `none` in this variant). -/
structure GridFinish where
  points : Int
  results : Option (List WordPracticeResult)
deriving DecidableEq, Repr

structure GridState where
  queue : List GameWord
  hadMistakeOnCurrentWord : Bool
  score : Int
  gameState : GridGameState
  collectedLetters : List Char
  finishCalls : List GridFinish
  attemptRejects : Nat
  attempts : List AttemptRecord
  totalCollected : Nat
  totalWrong : Nat
  totalCompletions : Nat
  flooredEver : Bool
deriving DecidableEq, Repr

/-- Mount: `gameState` starts as `'starting'` (line 34) and the
`[advanceCounter, resetLevel]` effect (lines 112-114) immediately resets to
`preview` when a current word exists. -/
def gridInit (ws : List GameWord) : GridState where
  queue := ws
  hadMistakeOnCurrentWord := false
  score := 0
  gameState := if ws.isEmpty then .starting else .preview
  collectedLetters := []
  finishCalls := []
  attemptRejects := 0
  attempts := []
  totalCollected := 0
  totalWrong := 0
  totalCompletions := 0
  flooredEver := false

/-- Letter-collision outcomes and button presses. -/
inductive GridEvent where
  | startPlaying
  | collectCorrect
  | collectWrong
  | next
deriving DecidableEq, Repr

/-- One step.  `collectCorrect`: +10, grow, and on the last letter +200 and
`feedback` — the bonus is unconditional on mistakes (line 175).
`collectWrong`: flag the mistake and floor the −10 at 0 (lines 188-190).
`next` mirrors the bee variant's advance but finishes with the score
only. -/
def gridStep (s : GridState) (e : GridEvent) : GridState :=
  match s.queue with
  | [] => s
  | w :: rest =>
      match e with
      | .startPlaying =>
          if s.gameState = .preview then { s with gameState := .playing } else s
      | .collectCorrect =>
          if s.gameState = .playing
              ∧ s.collectedLetters.length < (targetLetters w).length then
            { s with
              collectedLetters :=
                s.collectedLetters
                  ++ [(targetLetters w).getD s.collectedLetters.length 'A']
              score :=
                if s.collectedLetters.length + 1 = (targetLetters w).length
                then s.score + 10 + 200 else s.score + 10
              gameState :=
                if s.collectedLetters.length + 1 = (targetLetters w).length
                then .feedback else s.gameState
              totalCollected := s.totalCollected + 1
              totalCompletions :=
                s.totalCompletions
                  + (if s.collectedLetters.length + 1 = (targetLetters w).length
                     then 1 else 0) }
          else s
      | .collectWrong =>
          if s.gameState = .playing then
            { s with
              hadMistakeOnCurrentWord := true
              score := max 0 (s.score - 10)
              attemptRejects := s.attemptRejects + 1
              totalWrong := s.totalWrong + 1
              flooredEver := s.flooredEver || decide (s.score < 10) }
          else s
      | .next =>
          if s.gameState = .feedback then
            { s with
              queue := if s.hadMistakeOnCurrentWord then rest ++ [w] else rest
              hadMistakeOnCurrentWord := false
              attempts := s.attempts ++ [⟨w.id, w.word, s.attemptRejects⟩]
              attemptRejects := 0
              collectedLetters :=
                if (if s.hadMistakeOnCurrentWord then rest ++ [w] else rest).isEmpty
                then s.collectedLetters else []
              gameState :=
                if (if s.hadMistakeOnCurrentWord then rest ++ [w] else rest).isEmpty
                then s.gameState else .preview
              finishCalls :=
                if (if s.hadMistakeOnCurrentWord then rest ++ [w] else rest).isEmpty
                then s.finishCalls ++ [⟨s.score, none⟩] else s.finishCalls }
          else s

def gridRun (ws : List GameWord) (evs : List GridEvent) : GridState :=
  List.foldl gridStep (gridInit ws) evs

/-- Score invariant of the grid variant. -/
structure GridInv (s : GridState) : Prop where
  score_nonneg : 0 ≤ s.score
  score_formula : s.flooredEver = false →
    s.score = 10 * (s.totalCollected : Int) - 10 * (s.totalWrong : Int)
      + 200 * (s.totalCompletions : Int)

theorem gridStep_inv (s : GridState) (e : GridEvent)
    (h : GridInv s) : GridInv (gridStep s e) := by
  obtain ⟨hnn, hform⟩ := h
  cases hq : s.queue with
  | nil =>
      simp only [gridStep, hq]
      exact ⟨hnn, hform⟩
  | cons w rest =>
      cases e with
      | startPlaying =>
          simp only [gridStep, hq]
          split
          · exact ⟨hnn, hform⟩
          · exact ⟨hnn, hform⟩
      | collectCorrect =>
          simp only [gridStep, hq]
          split
          · by_cases hc : s.collectedLetters.length + 1 = (targetLetters w).length <;>
              refine ⟨?_, ?_⟩ <;>
              simp only [hc, if_pos, if_neg, if_true, if_false] <;>
              first
              | omega
              | (intro hfe
                 have hbase := hform hfe
                 simp [hc]
                 push_cast
                 push_cast at hbase
                 omega)
          · exact ⟨hnn, hform⟩
      | collectWrong =>
          simp only [gridStep, hq]
          split
          · refine ⟨le_max_left 0 _, ?_⟩
            intro hfe
            simp only at hfe
            rw [Bool.or_eq_false_iff] at hfe
            obtain ⟨hfe0, hfe1⟩ := hfe
            have hbase := hform hfe0
            simp only [decide_eq_false_iff_not, not_lt] at hfe1
            simp only
            rw [max_eq_right (by omega)]
            push_cast at hbase
            omega
          · exact ⟨hnn, hform⟩
      | next =>
          simp only [gridStep, hq]
          split
          · exact ⟨hnn, hform⟩
          · exact ⟨hnn, hform⟩

theorem gridRun_inv (ws : List GameWord) (evs : List GridEvent) :
    GridInv (gridRun ws evs) := by
  have : ∀ (s : GridState), GridInv s → GridInv (List.foldl gridStep s evs) := by
    induction evs with
    | nil => exact fun s hs => hs
    | cons e rest ih => exact fun s hs => ih (gridStep s e) (gridStep_inv s e hs)
  exact this (gridInit ws) ⟨le_refl 0, fun _ => by simp [gridInit]⟩

end SpellingFox

namespace SpellingFox

/-- C2 counterexample.  A clean grid-collection session: the single word is
collected without any mistake (a zero-reject attempt exists), yet the
finish callback carries no result list at all (`onFinish(score)` — the
optional results parameter is `none`), so no word is recorded
`correct = true`: the claimed "if and only if" fails for this mini-game
session. -/
theorem grid_no_results_cex :
    (gridRun [⟨"g1", "A"⟩] [.startPlaying, .collectCorrect, .next]).finishCalls
        = [⟨210, none⟩]
      ∧ (∃ a ∈ (gridRun [⟨"g1", "A"⟩]
            [.startPlaying, .collectCorrect, .next]).attempts,
          a.wordId = "g1" ∧ a.rejects = 0)
      ∧ ¬ ∃ c ∈ (gridRun [⟨"g1", "A"⟩]
            [.startPlaying, .collectCorrect, .next]).finishCalls,
          ∃ r ∈ c.results.getD [], r.wordId = "g1" ∧ r.correct = true := by
  refine ⟨by decide, by decide, by decide⟩

/-- C3 (amended).  In both the typed-dictation and the grid-collection
variants the running score is never negative.  When no −10 deduction was
floored, the final score is `10*N − 10*M + 200*W`, where N counts accepted
letters and M rejected candidates — but `W` differs per variant: the bee
awards the +200 bonus only for attempts completed with every letter
correct, while the grid awards it on every completed attempt, mistakes
included. -/
theorem score_formula_amended :
    (∀ (ws : List GameWord) (evs : List BeeEvent),
        0 ≤ (beeRun ws evs).score
          ∧ ((beeRun ws evs).flooredEver = false →
              (beeRun ws evs).score
                = 10 * ((beeRun ws evs).totalAccepted : Int)
                  - 10 * ((beeRun ws evs).totalRejected : Int)
                  + 200 * ((beeRun ws evs).totalCleanCompletions : Int)))
      ∧ (∀ (ws : List GameWord) (evs : List GridEvent),
          0 ≤ (gridRun ws evs).score
            ∧ ((gridRun ws evs).flooredEver = false →
                (gridRun ws evs).score
                  = 10 * ((gridRun ws evs).totalCollected : Int)
                    - 10 * ((gridRun ws evs).totalWrong : Int)
                    + 200 * ((gridRun ws evs).totalCompletions : Int))) :=
  ⟨fun ws evs => ⟨(beeRun_inv ws evs).score_nonneg, (beeRun_inv ws evs).score_formula⟩,
   fun ws evs => ⟨(gridRun_inv ws evs).score_nonneg, (gridRun_inv ws evs).score_formula⟩⟩

/-- Witness for C3: a clean one-word bee session never floors a deduction;
its final score is 210 = 10*1 − 10*0 + 200*1. -/
theorem score_formula_amended_witness :
    (beeRun [⟨"cw3", "A"⟩] [.startPlaying, .key "A", .next]).score
      = 10 * ((beeRun [⟨"cw3", "A"⟩] [.startPlaying, .key "A", .next]).totalAccepted : Int)
        - 10 * ((beeRun [⟨"cw3", "A"⟩] [.startPlaying, .key "A", .next]).totalRejected : Int)
        + 200 * ((beeRun [⟨"cw3", "A"⟩]
            [.startPlaying, .key "A", .next]).totalCleanCompletions : Int) :=
  (score_formula_amended.1 [⟨"cw3", "A"⟩] [.startPlaying, .key "A", .next]).2 (by decide)

/-- C3 counterexample.  Bee session, word "AB": wrong letter at score 0
(the deduction floors), then the slot fills with a correct letter but the
completed word gets no bonus (not all letters correct), then a clean
retry.  The code's final score is 230 with N = 3 accepted, M = 1 rejected;
the claimed `10*N − 10*M + 200*W` gives 220 with W = 1 (distinct words
completed) and 420 with W = 2 (completion events) — neither matches. -/
theorem bee_score_formula_cex :
    (beeRun [⟨"w3", "AB"⟩]
        [.startPlaying, .key "X", .key "B", .next,
         .startPlaying, .key "A", .key "B", .next]).score = 230
      ∧ (beeRun [⟨"w3", "AB"⟩]
          [.startPlaying, .key "X", .key "B", .next,
           .startPlaying, .key "A", .key "B", .next]).totalAccepted = 3
      ∧ (beeRun [⟨"w3", "AB"⟩]
          [.startPlaying, .key "X", .key "B", .next,
           .startPlaying, .key "A", .key "B", .next]).totalRejected = 1
      ∧ (beeRun [⟨"w3", "AB"⟩]
          [.startPlaying, .key "X", .key "B", .next,
           .startPlaying, .key "A", .key "B", .next]).totalCompletions = 2
      ∧ (230 : Int) ≠ 10 * 3 - 10 * 1 + 200 * 1
      ∧ (230 : Int) ≠ 10 * 3 - 10 * 1 + 200 * 2 := by
  refine ⟨by decide, by decide, by decide, by decide, by decide, by decide⟩

end SpellingFox

namespace SpellingFox

/-! ## Empty-word-list behaviour (C4)

SpellingBeeModal renders the neutral "Completing…" placeholder whenever
`queue[0]` is undefined, and with an empty queue every handler is inert, so
the session state never changes.  SpellingModal (grid) *intends* the same
(`if (!currentWord) return <Completing…/>`, lines 265-271) — but its render
body evaluates the `useCallback` dependency array
`[currentWord.word, spawnLetters]` (line 205) *before* that guard, and with
an empty word list `currentWord` is `undefined`, so rendering throws a
TypeError instead of showing the placeholder. -/

/-- What the grid component's render produces. -/
inductive GridView where
  | completing
  | game
deriving DecidableEq, Repr

/-- JS property access `x.word` on a possibly-undefined value. -/
def jsWordField : Option GameWord → Except String String
  | none => .error "TypeError: Cannot read properties of undefined (reading 'word')"
  | some w => .ok w.word

/-- The grid component's render path for a given queue, in source order:
first the `useCallback` dependency array `[currentWord.word, spawnLetters]`
(SpellingModal.tsx:205), then the `!currentWord` placeholder guard
(lines 265-271). -/
def spellingModalRender (queue : List GameWord) : Except String GridView := do
  let _ ← jsWordField queue.head?
  match queue.head? with
  | none => pure .completing
  | some _ => pure .game

theorem beeStep_empty (s : BeeState) (e : BeeEvent) (hq : s.queue = []) :
    beeStep s e = s := by
  simp only [beeStep, hq]

theorem beeRun_empty_frozen (evs : List BeeEvent) : beeRun [] evs = beeInit [] := by
  have : ∀ s : BeeState, s.queue = [] → List.foldl beeStep s evs = s := by
    induction evs with
    | nil => exact fun s _ => rfl
    | cons e rest ih =>
        intro s hs
        rw [List.foldl_cons, beeStep_empty s e hs]
        exact ih s hs
  exact this (beeInit []) rfl

/-- C4 (code bug).  With an empty input word list the typed-dictation bee
behaves as claimed — it renders only the "Completing…" placeholder, its
score stays 0 and the finish callback never fires, whatever events arrive —
but the grid-collection variant does not: its render evaluates
`currentWord.word` in a dependency array before the placeholder guard and
throws a TypeError on the empty queue instead of rendering the
placeholder. -/
theorem empty_input_behaviour :
    spellingModalRender []
        = .error "TypeError: Cannot read properties of undefined (reading 'word')"
      ∧ (∀ evs : List BeeEvent, beeRun [] evs = beeInit [])
      ∧ beeRender (beeInit []) = .completing
      ∧ (beeInit []).score = 0
      ∧ (beeInit []).finishCalls = [] :=
  ⟨rfl, beeRun_empty_frozen, rfl, rfl, rfl⟩

end SpellingFox
